import Mathlib

/-
Verification of the sqlite-backed peer directory of zeronet_tracker
(src/peer_db/sqlite.rs) via a shallow embedding.

The embedding mirrors the code, including the behavior of the sqlite
bindings it uses:
  * Connection::prepare compiles only the FIRST statement of a
    multi-statement string (sqlite3_prepare_v2 with an ignored tail);
    Connection::execute (sqlite3_exec) runs every statement.
  * change_count is sqlite3_changes: rows changed by the most recently
    completed DML statement.
  * A prepared statement that is bound but never stepped has no effect.
  * A bare column in an aggregate query without GROUP BY comes from an
    unspecified row (NULL when there are no rows); COUNT(col) counts
    non-NULL values.
  * x IN (set) is false/NULL when the only members are NULL, so such a
    row is never deleted; UNIQUE constraints never fire on NULL columns.
A Rust panic (an .unwrap() failure while reading rows) is modelled by
returning none from the corresponding query.
-/

namespace PeerDB

/-- A std SystemTime at or after the Unix epoch: whole seconds since the
epoch plus a sub-second nanosecond part. -/
structure STime where
  secs : Nat
  nanos : Nat
deriving DecidableEq

/-- Peer addresses are opaque strings: the code only ever stores
address.to_string() and parses it back. -/
abbrev Address := String

/-- A hash is an opaque byte sequence (Vec of u8 in the code). -/
abbrev HashVal := List Nat

/-- The Peer value handed to and returned from the store. -/
structure SPeer where
  address : Address
  date_added : STime
  last_seen : STime
deriving DecidableEq

/-- timestamp_to_unix: duration_since(UNIX_EPOCH).unwrap().as_secs() as i64.
as_secs yields the whole-second part as a u64; the as-i64 cast
reinterprets its low 64 bits as a signed two's-complement integer. -/
def timestamp_to_unix (t : STime) : Int :=
  let u : Nat := t.secs % 2 ^ 64
  if u < 2 ^ 63 then (u : Int) else (u : Int) - 2 ^ 64

/-- unix_to_timestamp: UNIX_EPOCH + Duration::from_secs(seconds as u64).
The as-u64 cast takes the value modulo 2^64; the result has no
sub-second part. -/
def unix_to_timestamp (s : Int) : STime :=
  ⟨(s % 2 ^ 64).toNat, 0⟩

/-- A row of the peers table: pk INTEGER PRIMARY KEY AUTOINCREMENT,
address TEXT UNIQUE NOT NULL, date_added TIMESTAMP, last_seen TIMESTAMP. -/
structure PeerRow where
  pk : Nat
  address : Address
  date_added : Int
  last_seen : Int
deriving DecidableEq

/-- A row of the hashes table: pk INTEGER PRIMARY KEY AUTOINCREMENT,
hash BLOB UNIQUE NOT NULL. -/
structure HashRow where
  pk : Nat
  hash : HashVal
deriving DecidableEq

/-- A row of the peer_hashes table: peer_pk and hash_pk are nullable
integer columns (the INSERT in link can store NULL when a subselect
finds no row), with UNIQUE(peer_pk, hash_pk). -/
structure LinkRow where
  peer_pk : Option Nat
  hash_pk : Option Nat
deriving DecidableEq

/-- The in-memory database: the three tables in storage order plus the
next AUTOINCREMENT value of each rowid column. -/
structure DB where
  peers : List PeerRow
  hashes : List HashRow
  links : List LinkRow
  nextPeerPk : Nat
  nextHashPk : Nat
deriving DecidableEq

/-- PeerDB::new creates the three empty tables; AUTOINCREMENT starts at 1. -/
def emptyDB : DB := ⟨[], [], [], 1, 1⟩

/-- Reading a peer row back out of the store: the address string is parsed
back into a PeerAddr (the identity on the opaque string) and the two
integer columns go through unix_to_timestamp. -/
def rowToPeer (r : PeerRow) : SPeer :=
  ⟨r.address, unix_to_timestamp r.date_added, unix_to_timestamp r.last_seen⟩

/-- upsert_peer: INSERT INTO peers ... ON CONFLICT (address) DO UPDATE SET
last_seen = :last_seen RETURNING last_seen. The returned flag compares
date_updated (the bound :date_added value) with the single column the
statement returns, which is the row's last_seen and in both the insert
and the update branch equals the bound :last_seen value. -/
def upsert_peer (db : DB) (p : SPeer) : DB × Bool :=
  let da := timestamp_to_unix p.date_added
  let ls := timestamp_to_unix p.last_seen
  match db.peers.find? (fun r => r.address = p.address) with
  | some _ =>
      (⟨db.peers.map (fun r => if r.address = p.address then ⟨r.pk, r.address, r.date_added, ls⟩ else r),
        db.hashes, db.links, db.nextPeerPk, db.nextHashPk⟩,
       decide (da ≠ ls))
  | none =>
      (⟨db.peers ++ [⟨db.nextPeerPk, p.address, da, ls⟩],
        db.hashes, db.links, db.nextPeerPk + 1, db.nextHashPk⟩,
       decide (da ≠ ls))

/-- insert_hash: INSERT INTO hashes (hash) VALUES (:hash)
ON CONFLICT (hash) DO NOTHING. -/
def insert_hash (db : DB) (h : HashVal) : DB :=
  match db.hashes.find? (fun r => r.hash = h) with
  | some _ => db
  | none =>
      ⟨db.peers, db.hashes ++ [⟨db.nextHashPk, h⟩], db.links,
       db.nextPeerPk, db.nextHashPk + 1⟩

/-- link: INSERT INTO peer_hashes (peer_pk, hash_pk) VALUES
((SELECT pk FROM peers WHERE address = ?), (SELECT pk FROM hashes WHERE
hash = ?)) ON CONFLICT (peer_pk, hash_pk) DO NOTHING. An empty subselect
inserts NULL; the UNIQUE constraint only fires when both columns of an
existing row are non-NULL and equal to the inserted pair. -/
def link (db : DB) (h : HashVal) (addr : Address) : DB :=
  let ppk := (db.peers.find? (fun r => r.address = addr)).map (fun r => r.pk)
  let hpk := (db.hashes.find? (fun r => r.hash = h)).map (fun r => r.pk)
  if ppk.isSome ∧ hpk.isSome ∧ LinkRow.mk ppk hpk ∈ db.links then db
  else ⟨db.peers, db.hashes, db.links ++ [⟨ppk, hpk⟩], db.nextPeerPk, db.nextHashPk⟩

/-- update_peer: upsert the peer, then for each hash insert_hash followed
by link; the returned flag is the one upsert_peer produced. -/
def update_peer (db : DB) (p : SPeer) (hs : List HashVal) : DB × Bool :=
  let r := upsert_peer db p
  (hs.foldl (fun d h => link (insert_hash d h) h p.address) r.1, r.2)

/-- remove_peer: the link-deleting statement is prepared and bound but
next() is never called on it, so it does nothing. The second statement,
DELETE FROM peers WHERE address = ? RETURNING address, date_added,
last_seen, deletes every matching row on the first cursor step and the
code reads back the first returned row. -/
def remove_peer (db : DB) (addr : Address) : DB × Option SPeer :=
  match db.peers.find? (fun r => r.address = addr) with
  | none => (db, none)
  | some r =>
      (⟨db.peers.filter (fun q => ¬ q.address = addr), db.hashes, db.links,
        db.nextPeerPk, db.nextHashPk⟩,
       some (rowToPeer r))

/-- get_peer: SELECT address, date_added, last_seen FROM peers WHERE
address = ?, reading the first returned row if any. -/
def get_peer (db : DB) (addr : Address) : Option SPeer :=
  (db.peers.find? (fun r => r.address = addr)).map rowToPeer

/-- get_peers: full scan of the peers table. -/
def get_peers (db : DB) : List SPeer :=
  db.peers.map rowToPeer

/-- The LEFT JOIN peers p ON (p.pk = ph.peer_pk) lookup for one link row:
the first peer row carrying that pk, none when peer_pk is NULL or no
peer row matches (the join then yields a row of NULLs). -/
def resolve_peer (db : DB) (l : LinkRow) : Option PeerRow :=
  l.peer_pk.bind (fun pk => db.peers.find? (fun r => r.pk = pk))

/-- The row-reading loop of get_peers_for_hash: each joined row is turned
into a Peer with row[i].unwrap(); a row of NULLs (a link whose peer row
is missing) makes the unwrap panic, modelled as none. -/
def collect_peers (db : DB) : List LinkRow → Option (List SPeer)
  | [] => some []
  | l :: ls =>
      match (resolve_peer db l).map rowToPeer with
      | none => none
      | some p => (collect_peers db ls).map (fun ps => p :: ps)

/-- get_peers_for_hash: SELECT address, date_added, last_seen FROM hashes h
INNER JOIN peer_hashes ph ON (h.pk = ph.hash_pk) LEFT JOIN peers p ON
(p.pk = ph.peer_pk) WHERE hash = ?. The inner join keeps one row per
link of a hash row whose hash equals the argument; the left join then
supplies the peer columns, or NULLs that crash the reading loop. -/
def get_peers_for_hash (db : DB) (h : HashVal) : Option (List SPeer) :=
  collect_peers db
    ((db.hashes.filter (fun r => r.hash = h)).flatMap
      (fun hr => db.links.filter (fun l => l.hash_pk = some hr.pk)))

/-- get_hashes: SELECT hash, COUNT(peer_pk) FROM hashes h INNER JOIN
peer_hashes ph ON (h.pk = ph.hash_pk) GROUP BY (hash). A hash row with
no link produces no group; COUNT(peer_pk) counts the non-NULL peer_pk
values among the hash row's links. -/
def get_hashes (db : DB) : List (HashVal × Nat) :=
  db.hashes.filterMap (fun hr =>
    let ls := db.links.filter (fun l => l.hash_pk = some hr.pk)
    if ls.isEmpty then none
    else some (hr.hash, ls.countP (fun l => l.peer_pk.isSome)))

/-- get_peer_count: SELECT COUNT(pk) FROM peers. -/
def get_peer_count (db : DB) : Nat := db.peers.length

/-- get_hash_count: SELECT COUNT(pk) FROM hashes. -/
def get_hash_count (db : DB) : Nat := db.hashes.length

/-- cleanup_peers: the two-statement string "DELETE FROM peer_hashes WHERE
peer_pk IN (SELECT pk FROM peers WHERE last_seen < :timestamp); DELETE
FROM peers WHERE last_seen < :timestamp;" goes through prepare, which
compiles only the first statement; the single next() call therefore
deletes only the link rows of stale peers, the peers table is untouched,
and change_count reports the number of deleted link rows. A NULL
peer_pk never satisfies the IN. -/
def cleanup_peers (db : DB) (cutoff : STime) : DB × Nat :=
  let c := timestamp_to_unix cutoff
  let stale := (db.peers.filter (fun r => r.last_seen < c)).map (fun r => r.pk)
  let isStale : LinkRow → Bool := fun l =>
    match l.peer_pk with
    | some pk => stale.contains pk
    | none => false
  (⟨db.peers, db.hashes, db.links.filter (fun l => ¬ isStale l), db.nextPeerPk, db.nextHashPk⟩,
   db.links.countP isStale)

/-- cleanup_hashes: DELETE FROM hashes WHERE pk IN (SELECT pk FROM
(SELECT hash_pk pk, COUNT(peer_pk) count FROM peer_hashes) WHERE
count = 0), run through execute. The inner select is an aggregate
without GROUP BY: exactly one row, whose pk column is the hash_pk of an
unspecified link row (modelled as the first; NULL when the table is
empty) and whose count counts non-NULL peer_pk values over the whole
table. change_count reports the hash rows this deletes. -/
def cleanup_hashes (db : DB) : DB × Nat :=
  let aggPk : Option Nat := db.links.head?.bind (fun l => l.hash_pk)
  let aggCount : Nat := db.links.countP (fun l => l.peer_pk.isSome)
  let victims : List (Option Nat) := if aggCount = 0 then [aggPk] else []
  let keep := db.hashes.filter (fun hr => ¬ some hr.pk ∈ victims)
  (⟨db.peers, keep, db.links, db.nextPeerPk, db.nextHashPk⟩,
   db.hashes.length - keep.length)

/-- Schema well-formedness the engine's UNIQUE constraints and rowid
allocation guarantee: pairwise distinct peer addresses and pks and
pairwise distinct hash values and pks. -/
def WF (db : DB) : Prop :=
  db.peers.Pairwise (fun r s => r.address ≠ s.address ∧ r.pk ≠ s.pk) ∧
  db.hashes.Pairwise (fun r s => r.hash ≠ s.hash ∧ r.pk ≠ s.pk)

/-- Every link row carries a non-NULL peer_pk that matches a peer row. -/
def NoDangling (db : DB) : Prop :=
  ∀ l ∈ db.links, (resolve_peer db l).isSome

/-- Peer row pr serves hash value h: some hash row carries h and some link
row joins pr's pk to that hash row's pk. -/
def PeerLinked (db : DB) (pr : PeerRow) (h : HashVal) : Prop :=
  ∃ hr ∈ db.hashes, hr.hash = h ∧
    ∃ l ∈ db.links, l.peer_pk = some pr.pk ∧ l.hash_pk = some hr.pk

/-- The first peer of the spec's scenario, announcing at t = 100. -/
def peer1 : SPeer := ⟨"10.0.0.1:6881", ⟨100, 0⟩, ⟨100, 0⟩⟩

/-- A three-byte hash value. -/
def hash1 : HashVal := [1, 2, 3]

/-- The store after peer1 announces hash1: one peer row, one hash row,
one link row. -/
def db1 : DB := (update_peer emptyDB peer1 [hash1]).1

/-- The store after cleanup_peers(101) on db1. -/
def staleSwept : DB := (cleanup_peers db1 ⟨101, 0⟩).1

/-- The store after remove_peer on db1: the peer row is gone but its link
row survives, pointing at a missing peer. -/
def dangling : DB := (remove_peer db1 "10.0.0.1:6881").1

/-- A sequence of announces: update_peer applied call after call. -/
def run_updates (db : DB) (calls : List (SPeer × List HashVal)) : DB :=
  calls.foldl (fun d c => (update_peer d c.1 c.2).1) db

/-- A later announce of the same address, at t = 200. -/
def peer2 : SPeer := ⟨"10.0.0.1:6881", ⟨200, 0⟩, ⟨200, 0⟩⟩

/-- A peer whose date_added carries a sub-second part (5 s + 7 ns) and
whose last_seen is a whole second (9 s). -/
def peer4 : SPeer := ⟨"10.0.0.4:6881", ⟨5, 7⟩, ⟨9, 0⟩⟩

/-- insert_hash never touches the peers table. -/
theorem insert_hash_peers (db : DB) (h : HashVal) :
    (insert_hash db h).peers = db.peers := by
  simp only [insert_hash]
  split <;> rfl

/-- link never touches the peers table. -/
theorem link_peers (db : DB) (h : HashVal) (a : Address) :
    (link db h a).peers = db.peers := by
  simp only [link]
  split <;> rfl

/-- The hash/link loop of update_peer never touches the peers table. -/
theorem hash_fold_peers (a : Address) (hs : List HashVal) (db : DB) :
    (hs.foldl (fun d h => link (insert_hash d h) h a) db).peers = db.peers := by
  induction hs generalizing db with
  | nil => rfl
  | cons h t ih =>
      rw [List.foldl_cons, ih, link_peers, insert_hash_peers]

/-- The peers table after update_peer is the one upsert_peer produced. -/
theorem update_peer_peers (db : DB) (p : SPeer) (hs : List HashVal) :
    (update_peer db p hs).1.peers = (upsert_peer db p).1.peers := by
  simp only [update_peer]
  exact hash_fold_peers p.address hs _

/-- On the empty store update_peer leaves exactly one peer row, holding the
unix truncations of the supplied timestamps. -/
theorem update_empty_peers (p : SPeer) (hs : List HashVal) :
    (update_peer emptyDB p hs).1.peers =
      [⟨1, p.address, timestamp_to_unix p.date_added, timestamp_to_unix p.last_seen⟩] := by
  rw [update_peer_peers]
  rfl

/-- Reading back the peer just stored on the empty store yields the unix
round trip of its two timestamps. -/
theorem get_peer_update_empty (p : SPeer) (hs : List HashVal) :
    get_peer (update_peer emptyDB p hs).1 p.address =
      some ⟨p.address, unix_to_timestamp (timestamp_to_unix p.date_added),
        unix_to_timestamp (timestamp_to_unix p.last_seen)⟩ := by
  rw [get_peer, update_peer_peers]
  simp [upsert_peer, emptyDB, List.find?, rowToPeer]

/-- A second of unix time survives the i64 and u64 casts whenever the
original count of seconds fits in 64 bits. -/
theorem unix_roundtrip (t : STime) (h : t.secs < 2 ^ 64) :
    unix_to_timestamp (timestamp_to_unix t) = ⟨t.secs, 0⟩ := by
  simp only [timestamp_to_unix, unix_to_timestamp, STime.mk.injEq]
  split <;> exact ⟨by omega, trivial⟩

/-- C1: the claim says cleanup_peers(cutoff) removes exactly the peers with
last_seen < cutoff together with their links and returns the affected row
count. In the code only the first statement of the two-statement string is
ever compiled, so on a store holding one stale peer (last seen 100, cutoff
101) the peer row survives the sweep: get_peer_count stays 1 and get_peer
still finds it; only the link row is deleted and only it is counted. -/
theorem cleanup_peers_keeps_stale_peers :
    get_peer_count (cleanup_peers db1 ⟨101, 0⟩).1 = 1 ∧
    get_peer (cleanup_peers db1 ⟨101, 0⟩).1 "10.0.0.1:6881" = some peer1 ∧
    (cleanup_peers db1 ⟨101, 0⟩).1.links = [] ∧
    (cleanup_peers db1 ⟨101, 0⟩).2 = 1 := by decide

/-- C2: the claim says cleanup_hashes() removes exactly the hashes with zero
links and returns the removed count. On the store left by the scenario of
C1 the single hash has zero links, yet cleanup_hashes removes nothing and
returns 0: its aggregate subquery yields the one row (NULL, 0) and
"pk IN (NULL)" matches no hash row. -/
theorem cleanup_hashes_keeps_orphan_hash :
    staleSwept.links = [] ∧
    get_hash_count staleSwept = 1 ∧
    cleanup_hashes staleSwept = (staleSwept, 0) := by decide

/-- C3 counterexample: the claim says update_peer returns true iff a peer
row with that address already existed. Announcing a brand-new address on
the empty store with date_added = 0 and last_seen = 1 returns true even
though no row existed. -/
theorem update_peer_flag_true_for_unknown_peer :
    get_peer emptyDB "10.0.0.3:6881" = none ∧
    (update_peer emptyDB ⟨"10.0.0.3:6881", ⟨0, 0⟩, ⟨1, 0⟩⟩ []).2 = true := by decide

/-- C3 amended: update_peer's flag does not depend on the store at all: it
is true exactly when the supplied peer's own date_added and last_seen map
to different unix seconds, because the upsert's RETURNING clause hands back
the just-written last_seen value. -/
theorem update_peer_flag_ignores_store (db : DB) (p : SPeer) (hs : List HashVal) :
    ((update_peer db p hs).2 = true ↔
      timestamp_to_unix p.date_added ≠ timestamp_to_unix p.last_seen) := by
  unfold update_peer upsert_peer
  cases h : db.peers.find? (fun r => r.address = p.address) <;> simp [h]

/-- C4: the claim says remove_peer deletes all of the peer's links along
with the peer row. The link-delete statement is prepared but never stepped:
removing the only peer (pk 1) deletes its row yet leaves the link row still
referencing peer_pk 1. -/
theorem remove_peer_leaves_link_rows :
    (remove_peer db1 "10.0.0.1:6881").2 = some peer1 ∧
    (remove_peer db1 "10.0.0.1:6881").1.peers = [] ∧
    (remove_peer db1 "10.0.0.1:6881").1.links = [LinkRow.mk (some 1) (some 1)] := by decide

/-- C9: the claim says the peer_count reported by get_hashes for a hash
equals the length of get_peers_for_hash for it. After remove_peer leaves a
dangling link (C4), get_hashes still counts that link's non-NULL peer_pk
and reports (hash1, 1), while get_peers_for_hash aborts on the row of NULLs
the left join produces and returns no sequence at all. -/
theorem get_hashes_count_diverges_from_get_peers_for_hash :
    get_hashes dangling = [(hash1, 1)] ∧
    get_peers_for_hash dangling hash1 = none := by decide

/-- C6 counterexample: the claim says a link whose peer row is missing
contributes no peer and causes no error or abort. In the store left by
remove_peer the one link's peer row is gone, and get_peers_for_hash panics
on the unwrap of the NULL address column instead of returning a sequence. -/
theorem get_peers_for_hash_aborts_on_dangling_link :
    dangling.peers = [] ∧
    dangling.links = [LinkRow.mk (some 1) (some 1)] ∧
    get_peers_for_hash dangling hash1 = none := by decide

/-- C5: remove_peer on an unknown address returns none and leaves the store
as it was; on a known address it returns the stored record and a subsequent
get_peer of that address finds nothing. -/
theorem remove_peer_spec (db : DB) (addr : Address) :
    (get_peer db addr = none → remove_peer db addr = (db, none)) ∧
    (∀ p, get_peer db addr = some p →
      (remove_peer db addr).2 = some p ∧
      get_peer (remove_peer db addr).1 addr = none) := by
  unfold get_peer remove_peer
  cases hfind : db.peers.find? (fun r => r.address = addr) with
  | none => simp
  | some r =>
      refine ⟨by simp, fun p hp => ?_⟩
      simp only [Option.map_some', Option.some.injEq] at hp
      refine ⟨by simp [hp], ?_⟩
      simp only [Option.map_eq_none']
      rw [List.find?_eq_none]
      intro x hx
      have hxne := (List.mem_filter.mp hx).2
      simp only [decide_not, Bool.not_eq_true', decide_eq_false_iff_not] at hxne
      simpa using hxne

/-- C5 witness: on db1, removing the unknown "10.0.0.2:6881" is a no-op
returning none, and removing the known "10.0.0.1:6881" returns peer1 after
which get_peer no longer finds it. -/
theorem remove_peer_spec_witness :
    remove_peer db1 "10.0.0.2:6881" = (db1, none) ∧
    ((remove_peer db1 "10.0.0.1:6881").2 = some peer1 ∧
      get_peer (remove_peer db1 "10.0.0.1:6881").1 "10.0.0.1:6881" = none) :=
  ⟨(remove_peer_spec db1 "10.0.0.2:6881").1 (by decide),
   (remove_peer_spec db1 "10.0.0.1:6881").2 peer1 (by decide)⟩

/-- C7: announcing the same address twice, the second time with a larger
last_seen, keeps date_added at the first call's value and moves last_seen
to the second call's value (both as stored, that is unix-truncated). -/
theorem update_peer_preserves_date_added (q1 q2 : SPeer) (hs1 hs2 : List HashVal)
    (haddr : q2.address = q1.address)
    (hlt : q1.last_seen.secs < q2.last_seen.secs ∨
      (q1.last_seen.secs = q2.last_seen.secs ∧ q1.last_seen.nanos < q2.last_seen.nanos)) :
    get_peer (update_peer (update_peer emptyDB q1 hs1).1 q2 hs2).1 q1.address =
      some ⟨q1.address, unix_to_timestamp (timestamp_to_unix q1.date_added),
        unix_to_timestamp (timestamp_to_unix q2.last_seen)⟩ := by
  rw [get_peer, update_peer_peers]
  have hA := update_empty_peers q1 hs1
  simp only [upsert_peer, hA, haddr, List.find?]
  simp [rowToPeer]

/-- C7 witness: peer1 announces at 100, peer2 re-announces the same address
at 200; the stored row keeps date_added 100 and moves last_seen to 200. -/
theorem update_peer_preserves_date_added_witness :
    (peer2.address = peer1.address ∧ peer1.last_seen.secs < peer2.last_seen.secs) ∧
    get_peer (update_peer (update_peer emptyDB peer1 [hash1]).1 peer2 [hash1]).1 peer1.address =
      some ⟨peer1.address, unix_to_timestamp (timestamp_to_unix peer1.date_added),
        unix_to_timestamp (timestamp_to_unix peer2.last_seen)⟩ :=
  ⟨⟨rfl, by decide⟩,
   update_peer_preserves_date_added peer1 peer2 [hash1] [hash1] rfl (Or.inl (by decide))⟩

/-- A store holding exactly one peer row, with a given address, keeps that
shape under an update_peer call for the same address. -/
theorem update_peer_one_row (db : DB) (p : SPeer) (hs : List HashVal) (a : Address)
    (hp : p.address = a) (hdb : db.peers.map (fun r => r.address) = [a]) :
    (update_peer db p hs).1.peers.map (fun r => r.address) = [a] := by
  obtain ⟨r, hr, hra⟩ : ∃ r, db.peers = [r] ∧ r.address = a := by
    cases hpeers : db.peers with
    | nil => simp [hpeers] at hdb
    | cons x t =>
        cases t with
        | nil =>
            refine ⟨x, rfl, ?_⟩
            simpa [hpeers] using hdb
        | cons y u => simp [hpeers] at hdb
  rw [update_peer_peers]
  simp only [upsert_peer, hr, hra, hp, List.find?]
  simp [hra, hp]

/-- Announce after announce for one address, the peers table stays a single
row with that address. -/
theorem run_updates_one_row (a : Address) (calls : List (SPeer × List HashVal))
    (db : DB) (hdb : db.peers.map (fun r => r.address) = [a])
    (hall : ∀ c ∈ calls, c.1.address = a) :
    (run_updates db calls).peers.map (fun r => r.address) = [a] := by
  induction calls generalizing db with
  | nil => exact hdb
  | cons c t ih =>
      rw [run_updates, List.foldl_cons]
      exact ih _
        (update_peer_one_row db c.1 c.2 a (hall c (List.mem_cons_self c t)) hdb)
        (fun x hx => hall x (List.mem_cons_of_mem c hx))

/-- C8: any nonempty sequence of update_peer calls carrying one and the
same address, run on the empty store, leaves exactly one peer row:
get_peer_count is 1 after every call of the sequence. -/
theorem update_peer_address_unique (a : Address) (calls : List (SPeer × List HashVal))
    (hne : calls ≠ []) (hall : ∀ c ∈ calls, c.1.address = a) :
    get_peer_count (run_updates emptyDB calls) = 1 := by
  cases calls with
  | nil => exact absurd rfl hne
  | cons c t =>
      have hc : c.1.address = a := hall c (List.mem_cons_self c t)
      have h1 : (update_peer emptyDB c.1 c.2).1.peers.map (fun r => r.address) = [a] := by
        rw [update_empty_peers]
        simp [hc]
      have h2 := run_updates_one_row a t (update_peer emptyDB c.1 c.2).1 h1
        (fun x hx => hall x (List.mem_cons_of_mem c hx))
      have h3 := congrArg List.length h2
      simp only [List.length_map] at h3
      simpa [get_peer_count, run_updates, List.foldl_cons] using h3

/-- C8 witness: two announces of "10.0.0.1:6881" starting from the empty
store leave get_peer_count at 1. -/
theorem update_peer_address_unique_witness :
    (([((peer1 : SPeer), [hash1]), (peer2, ([] : List HashVal))] :
        List (SPeer × List HashVal)) ≠ [] ∧
      ∀ c ∈ ([(peer1, [hash1]), (peer2, [])] : List (SPeer × List HashVal)),
        c.1.address = "10.0.0.1:6881") ∧
    get_peer_count (run_updates emptyDB [(peer1, [hash1]), (peer2, [])]) = 1 :=
  ⟨⟨by decide, by decide⟩,
   update_peer_address_unique "10.0.0.1:6881" [(peer1, [hash1]), (peer2, [])]
     (by decide) (by decide)⟩

/-- C10: storing a peer on the empty store and reading it back returns its
timestamps truncated to whole seconds — the read-back value carries the
seconds of each supplied timestamp with a zero sub-second part — and the
round trip reproduces the stored peer exactly when both of its timestamps
had no sub-second part. -/
theorem update_peer_get_peer_truncates_to_seconds (p : SPeer) (hs : List HashVal)
    (hda : p.date_added.secs < 2 ^ 64) (hls : p.last_seen.secs < 2 ^ 64) :
    get_peer (update_peer emptyDB p hs).1 p.address =
      some ⟨p.address, ⟨p.date_added.secs, 0⟩, ⟨p.last_seen.secs, 0⟩⟩ ∧
    (get_peer (update_peer emptyDB p hs).1 p.address = some p ↔
      (p.date_added.nanos = 0 ∧ p.last_seen.nanos = 0)) := by
  have key := get_peer_update_empty p hs
  rw [unix_roundtrip p.date_added hda, unix_roundtrip p.last_seen hls] at key
  refine ⟨key, ?_⟩
  rw [key]
  obtain ⟨addr, ⟨s1, n1⟩, ⟨s2, n2⟩⟩ := p
  simp [SPeer.mk.injEq, STime.mk.injEq, eq_comm]

/-- C10 witness: peer4 has date_added 5 s + 7 ns and last_seen 9 s; the
read-back drops the 7 ns, and the round trip is not exact precisely
because that nanosecond part was nonzero. -/
theorem update_peer_get_peer_truncates_to_seconds_witness :
    (peer4.date_added.secs < 2 ^ 64 ∧ peer4.last_seen.secs < 2 ^ 64) ∧
    (get_peer (update_peer emptyDB peer4 []).1 peer4.address =
        some ⟨peer4.address, ⟨peer4.date_added.secs, 0⟩, ⟨peer4.last_seen.secs, 0⟩⟩ ∧
      (get_peer (update_peer emptyDB peer4 []).1 peer4.address = some peer4 ↔
        (peer4.date_added.nanos = 0 ∧ peer4.last_seen.nanos = 0))) :=
  ⟨⟨by decide, by decide⟩,
   update_peer_get_peer_truncates_to_seconds peer4 [] (by decide) (by decide)⟩

/-- When pks are pairwise distinct, find? by pk recovers exactly the member
row carrying that pk. -/
theorem find?_pk_of_mem (peers : List PeerRow) (pr : PeerRow)
    (hpw : peers.Pairwise (fun r s => r.address ≠ s.address ∧ r.pk ≠ s.pk))
    (hmem : pr ∈ peers) :
    peers.find? (fun r => r.pk = pr.pk) = some pr := by
  induction peers with
  | nil => cases hmem
  | cons q t ih =>
      rcases List.mem_cons.mp hmem with rfl | hmt
      · exact List.find?_cons_of_pos _ (by simp)
      · have hq : q.pk ≠ pr.pk := ((List.pairwise_cons.mp hpw).1 pr hmt).2
        rw [List.find?_cons_of_neg _ (by simp [hq])]
        exact ih (List.pairwise_cons.mp hpw).2 hmt

/-- The row-reading loop succeeds exactly on the resolvable link rows and
returns one peer per row: membership in its output is membership via some
input link. -/
theorem collect_peers_sound (db : DB) (ls : List LinkRow)
    (hall : ∀ l ∈ ls, (resolve_peer db l).isSome) :
    ∃ ps, collect_peers db ls = some ps ∧
      ∀ p, p ∈ ps ↔ ∃ l ∈ ls, (resolve_peer db l).map rowToPeer = some p := by
  induction ls with
  | nil => exact ⟨[], rfl, by simp⟩
  | cons l t ih =>
      obtain ⟨pr, hpr⟩ := Option.isSome_iff_exists.mp (hall l (List.mem_cons_self l t))
      obtain ⟨ps, hps, hmem⟩ := ih (fun x hx => hall x (List.mem_cons_of_mem l hx))
      refine ⟨rowToPeer pr :: ps, by simp [collect_peers, hpr, hps], ?_⟩
      intro p
      rw [List.mem_cons, hmem p]
      constructor
      · rintro (rfl | ⟨x, hx, hres⟩)
        · exact ⟨l, List.mem_cons_self l t, by rw [hpr]; rfl⟩
        · exact ⟨x, List.mem_cons_of_mem l hx, hres⟩
      · rintro ⟨x, hx, hres⟩
        rcases List.mem_cons.mp hx with rfl | hxt
        · left
          rw [hpr] at hres
          exact (Option.some.inj hres).symm
        · right
          exact ⟨x, hxt, hres⟩

/-- C6 amended: on a schema-well-formed store in which every link row
references an existing peer row, get_peers_for_hash(h) returns a sequence
holding exactly the peers linked to h; a link whose peer row is missing
instead makes the call abort (the NULL row from the left join fails the
unwrap), per the counterexample. -/
theorem get_peers_for_hash_exact (db : DB) (h : HashVal)
    (hwf : WF db) (hnd : NoDangling db) :
    ∃ ps, get_peers_for_hash db h = some ps ∧
      ∀ p, p ∈ ps ↔ ∃ pr ∈ db.peers, PeerLinked db pr h ∧ p = rowToPeer pr := by
  have hsub : ∀ l ∈ (db.hashes.filter (fun r => r.hash = h)).flatMap
      (fun hr => db.links.filter (fun l => l.hash_pk = some hr.pk)), l ∈ db.links := by
    intro l hl
    obtain ⟨hr, _, hlf⟩ := List.mem_flatMap.mp hl
    exact (List.mem_filter.mp hlf).1
  obtain ⟨ps, hps, hmem⟩ := collect_peers_sound db _ (fun l hl => hnd l (hsub l hl))
  refine ⟨ps, by rw [get_peers_for_hash]; exact hps, fun p => ?_⟩
  rw [hmem p]
  constructor
  · rintro ⟨l, hl, hres⟩
    obtain ⟨hr, hhrf, hlf⟩ := List.mem_flatMap.mp hl
    have hhr := List.mem_filter.mp hhrf
    have hl2 := List.mem_filter.mp hlf
    cases hppk : l.peer_pk with
    | none => simp [resolve_peer, hppk] at hres
    | some pk =>
        simp only [resolve_peer, hppk, Option.some_bind] at hres
        cases hfind : db.peers.find? (fun r => r.pk = pk) with
        | none => rw [hfind] at hres; simp at hres
        | some pr =>
            rw [hfind] at hres
            simp only [Option.map_some', Option.some.injEq] at hres
            have hprmem := List.mem_of_find?_eq_some hfind
            have hpk : pr.pk = pk := by simpa using List.find?_some hfind
            exact ⟨pr, hprmem,
              ⟨hr, hhr.1, by simpa using hhr.2, l, hl2.1, by rw [hppk, hpk],
                by simpa using hl2.2⟩,
              hres.symm⟩
  · rintro ⟨pr, hprmem, ⟨hr, hhrm, hhrh, l, hlm, hlppk, hlhpk⟩, rfl⟩
    refine ⟨l, List.mem_flatMap.mpr
      ⟨hr, List.mem_filter.mpr ⟨hhrm, by simpa using hhrh⟩,
        List.mem_filter.mpr ⟨hlm, by simpa using hlhpk⟩⟩, ?_⟩
    simp only [resolve_peer, hlppk, Option.some_bind]
    rw [find?_pk_of_mem db.peers pr hwf.1 hprmem]
    rfl

/-- C6 witness: on db1 — one peer, one hash, one sound link — the lookup
returns a sequence whose members are exactly the peers linked to hash1. -/
theorem get_peers_for_hash_exact_witness :
    ∃ ps, get_peers_for_hash db1 hash1 = some ps ∧
      ∀ p, p ∈ ps ↔ ∃ pr ∈ db1.peers, PeerLinked db1 pr hash1 ∧ p = rowToPeer pr :=
  get_peers_for_hash_exact db1 hash1 (by unfold WF; decide) (by unfold NoDangling; decide)

end PeerDB
